import Mathlib

/-!
Shallow embedding of the Empire Portal shared utilities and API client:
security masking helpers, currency arithmetic, the Zod validation schemas
for query parameters and amounts, the response-envelope handling and the
retry policy of the typed fetch wrapper, and the log sanitizer.

Strings are modelled as `List Char`; JavaScript numbers as `ℚ` (with a
separate tag for `NaN` and the infinities where the code can observe them).
-/

namespace EmpirePortal

/-- `substringOf needle hay` holds when `needle` occurs contiguously in `hay`
(the JavaScript `String.prototype.includes` relation). -/
def substringOf (needle hay : List Char) : Prop :=
  ∃ l r, hay = l ++ needle ++ r

/-- Embeds `sanitizeApiKey` (security utilities): empty input yields
`"[missing]"`, input of length ≤ 8 is returned as-is, otherwise the first
8 characters followed by `"..."`. -/
def sanitizeApiKey (apiKey : List Char) : List Char :=
  if apiKey = [] then "[missing]".data
  else if apiKey.length ≤ 8 then apiKey
  else apiKey.take 8 ++ "...".data

/-- Embeds `maskAccountNumber` (security utilities): strings that are empty
or of length ≤ 4 are returned unchanged; otherwise `min (length-4) 4`
asterisks followed by the last four characters (`slice(-4)`). -/
def maskAccountNumber (accountNumber : List Char) : List Char :=
  if accountNumber = [] ∨ accountNumber.length ≤ 4 then accountNumber
  else List.replicate (min (accountNumber.length - 4) 4) '*' ++
    accountNumber.drop (accountNumber.length - 4)

/-- JavaScript `Math.round`: round half toward positive infinity. Exact on
its argument (a double's value is a rational the primitive rounds
mathematically). -/
def jsRound (q : ℚ) : ℤ := ⌊q + 1 / 2⌋

/-- Round a rational to an integer, nearest value with ties to even (the
rounding direction of IEEE-754 arithmetic). -/
def roundNearestEven (q : ℚ) : ℤ :=
  if Int.fract q < 1 / 2 then ⌊q⌋
  else if 1 / 2 < Int.fract q then ⌊q⌋ + 1
  else if Even ⌊q⌋ then ⌊q⌋ else ⌊q⌋ + 1

/-- IEEE-754 binary64 rounding of an exact rational result: scale into the
53-bit mantissa range `[2^52, 2^53)` by the value's binary exponent, round
to nearest-even, and scale back. Faithful for normal magnitudes (the only
ones the currency code produces); zero maps to zero. -/
def roundDouble (x : ℚ) : ℚ :=
  if x = 0 then 0
  else
    (roundNearestEven (x / 2 ^ (Int.log 2 |x| - 52)) : ℚ) * 2 ^ (Int.log 2 |x| - 52)

/-- Embeds `centsToDollars` (currency utilities): the double division
`cents / 100`, whose exact quotient is rounded to binary64. The integer
cents argument itself is a double, hence exact. -/
def centsToDollars (cents : ℚ) : ℚ := roundDouble (cents / 100)

/-- Embeds `dollarsToCents` (currency utilities):
`Math.round(dollars * 100)`, where the double product is rounded to
binary64 before the (exact) `Math.round`. -/
def dollarsToCents (dollars : ℚ) : ℚ := (jsRound (roundDouble (dollars * 100)) : ℚ)

/-- Embeds `calculatePercentageChange` (currency utilities): guarded zero
divisor, otherwise `(current - previous) / |previous|`. -/
def calculatePercentageChange (current previous : ℚ) : ℚ :=
  if previous = 0 then (if 0 < current then 1 else 0)
  else (current - previous) / |previous|

/-- A JavaScript number: `NaN`, the two infinities, or a finite value
(modelled exactly as a rational). -/
inductive JsNumber where
  | nan
  | posInf
  | negInf
  | fin (q : ℚ)
deriving DecidableEq

/-- The `z.number()` type check: every number except `NaN` passes. -/
def zNumberAccepts : JsNumber → Bool
  | .nan => false
  | _ => true

/-- JavaScript `Number.isInteger` (the Zod `.int()` check). -/
def jsIsInteger : JsNumber → Bool
  | .fin q => q.den == 1
  | _ => false

/-- JavaScript `Number.isFinite` (the Zod `.finite()` check). -/
def jsIsFinite : JsNumber → Bool
  | .fin _ => true
  | _ => false

/-- JavaScript `value >= lo` (the Zod `.min(lo)` check); false on `NaN`. -/
def jsGe : JsNumber → ℚ → Bool
  | .fin q, lo => decide (lo ≤ q)
  | .posInf, _ => true
  | _, _ => false

/-- JavaScript `value <= hi` (the Zod `.max(hi)` check); false on `NaN`. -/
def jsLe : JsNumber → ℚ → Bool
  | .fin q, hi => decide (q ≤ hi)
  | .negInf, _ => true
  | _, _ => false

/-- Embeds `CentsSchema = z.number().int().finite()` (validation schemas):
a number is accepted iff all three chained checks pass. -/
def centsSchemaAccepts (n : JsNumber) : Bool :=
  zNumberAccepts n && jsIsInteger n && jsIsFinite n

/-- Acceptance test of the `limit` field of `TransactionQuerySchema`:
`z.number().int().min(1).max(1000)`. -/
def transactionLimitAccepts (n : JsNumber) : Bool :=
  zNumberAccepts n && jsIsInteger n && jsGe n 1 && jsLe n 1000

/-- Parse of the `limit` field of `TransactionQuerySchema`
(`.optional().default(100)`): an absent field defaults to 100; a supplied
number is kept iff the chained checks accept it. -/
def transactionLimitParse : Option JsNumber → Option JsNumber
  | none => some (.fin 100)
  | some n => if transactionLimitAccepts n then some n else none

/-- Acceptance test of the `offset` field of `TransactionQuerySchema`:
`z.number().int().min(0)`. -/
def transactionOffsetAccepts (n : JsNumber) : Bool :=
  zNumberAccepts n && jsIsInteger n && jsGe n 0

/-- Parse of the `offset` field of `TransactionQuerySchema`
(`.optional().default(0)`). -/
def transactionOffsetParse : Option JsNumber → Option JsNumber
  | none => some (.fin 0)
  | some n => if transactionOffsetAccepts n then some n else none

/-- Embeds the `ApiClientError` class of the API client (message, optional
HTTP status, optional provider code, optional details payload). -/
structure ApiClientError (δ : Type) where
  message : List Char
  statusCode : Option Nat
  code : Option (List Char)
  details : Option δ
deriving DecidableEq

/-- The tagged-result response envelope `ApiResponse<T>`
(`{success: true, data}` or `{success: false, error}`). -/
inductive ApiEnvelope (α δ : Type) where
  | success (data : α)
  | failure (message : List Char) (code : List Char) (details : Option δ)
deriving DecidableEq

/-- A fetched response body as seen by `apiRequest`: either not valid JSON
or a parsed envelope. -/
inductive ResponseBody (α δ : Type) where
  | malformed
  | json (env : ApiEnvelope α δ)
deriving DecidableEq

/-- Embeds the response-handling tail of `apiRequest` (client.ts lines
137-159): a malformed body throws `INVALID_RESPONSE`; a `success: false`
envelope throws an `ApiClientError` built from
`data.error.message || 'API error'`, the HTTP status, `data.error.code`
and `data.error.details`; a `success: true` envelope returns `data.data`. -/
def processResponse {α δ : Type} (status : Nat) : ResponseBody α δ → Except (ApiClientError δ) α
  | .malformed =>
    .error ⟨"Invalid JSON response".data, some status, some "INVALID_RESPONSE".data, none⟩
  | .json (.success d) => .ok d
  | .json (.failure m c det) =>
    .error ⟨if m = [] then "API error".data else m, some status, some c, det⟩

/-- An error thrown inside `retryRequest`'s loop: either an
`ApiClientError` instance or some other `Error`. -/
inductive ThrownError (δ : Type) where
  | api (e : ApiClientError δ)
  | plain (message : List Char)
deriving DecidableEq

/-- The `retryRequest` no-retry test
(`error instanceof ApiClientError && error.statusCode && error.statusCode < 500`):
true exactly for an `ApiClientError` with a truthy status code below 500. -/
def noRetryError {δ : Type} : ThrownError δ → Bool
  | .api e =>
    match e.statusCode with
    | some s => decide (s ≠ 0 ∧ s < 500)
    | none => false
  | .plain _ => false

/-- The `retryRequest` loop (client.ts lines 282-299), with the attempt
outcomes supplied as a function from attempt index to result. The fuel
argument counts the remaining loop iterations (`maxRetries - attempt`).
Returns the final outcome together with the list of backoff delays slept,
in order (`baseDelay * 2 ^ attempt` before each retry). -/
def retryLoop {α δ : Type} (f : Nat → Except (ThrownError δ) α) (maxRetries baseDelay : Nat) :
    Nat → Nat → Except (ThrownError δ) α × List Nat
  | 0, _ => (.error (.plain "Max retries exceeded".data), [])
  | fuel + 1, attempt =>
    match f attempt with
    | .ok v => (.ok v, [])
    | .error e =>
      if noRetryError e then (.error e, [])
      else if attempt < maxRetries - 1 then
        let rest := retryLoop f maxRetries baseDelay fuel (attempt + 1)
        (rest.1, baseDelay * 2 ^ attempt :: rest.2)
      else (.error e, [])

/-- Embeds `retryRequest` (client.ts lines 275-302): run the loop from
attempt 0 with `maxRetries` iterations of fuel. -/
def retryRequest {α δ : Type} (f : Nat → Except (ThrownError δ) α)
    (maxRetries baseDelay : Nat) : Except (ThrownError δ) α × List Nat :=
  retryLoop f maxRetries baseDelay maxRetries 0

/-- One Zod validation issue: a path into the validated object and a
message. -/
structure ZodIssue where
  path : List (List Char)
  message : List Char
deriving DecidableEq

/-- A Zod validation error: the list of issues (`error.errors`). -/
structure ZodError where
  errors : List ZodIssue
deriving DecidableEq

/-- The tagged result returned by `safeValidate`:
`{success: true, data}` or `{success: false, error}`. -/
inductive SafeResult (ω : Type) where
  | ok (data : ω)
  | err (e : ZodError)

/-- Embeds `safeValidate` (validation utilities): wraps the schema's
`safeParse` outcome into the tagged result, never throwing. -/
def safeValidate {ι ω : Type} (schemaParse : ι → Except ZodError ω) (data : ι) :
    SafeResult ω :=
  match schemaParse data with
  | .ok d => .ok d
  | .error e => .err e

/-- `err.path.join('.')`. -/
def dotJoin (path : List (List Char)) : List Char :=
  List.intercalate ['.'] path

/-- JavaScript object assignment `fields[k] = v` on a record modelled as an
assoc list: replaces the value in place if the key exists, appends
otherwise. -/
def setField : List (List Char × List Char) → List Char → List Char →
    List (List Char × List Char)
  | [], k, v => [(k, v)]
  | (k', v') :: rest, k, v =>
    if k' = k then (k, v) :: rest else (k', v') :: setField rest k v

/-- JavaScript property read `fields[k]` on the assoc-list record. -/
def getField : List (List Char × List Char) → List Char → Option (List Char)
  | [], _ => none
  | (k', v') :: rest, k => if k' = k then some v' else getField rest k

/-- The `error.errors.forEach` loop of `formatValidationError`: assign each
issue's message under its dot-joined path, in order. -/
def buildFields (issues : List ZodIssue) (acc : List (List Char × List Char)) :
    List (List Char × List Char) :=
  match issues with
  | [] => acc
  | i :: rest => buildFields rest (setField acc (dotJoin i.path) i.message)

/-- Embeds `formatValidationError` (validation utilities): the fixed
message `"Validation failed"` and a fields record keyed by dot-joined
issue paths. -/
def formatValidationError (e : ZodError) : List Char × List (List Char × List Char) :=
  ("Validation failed".data, buildFields e.errors [])

/-- A sample Zod issue used to witness the validation-error claims. -/
def sampleIssue : ZodIssue :=
  ⟨["limit".data], "Number must be greater than or equal to 1".data⟩

/-- A sample Zod error holding `sampleIssue`. -/
def sampleZodError : ZodError := ⟨[sampleIssue]⟩

/-- The default `sensitiveFields` list of `sanitizeForLog`. -/
def defaultSensitiveFields : List (List Char) :=
  ["apiKey".data, "api_key".data, "token".data, "password".data, "secret".data,
    "authorization".data, "accountNumber".data, "routingNumber".data]

/-- JavaScript `hay.includes(needle)`: contiguous substring test. -/
def strIncludes : List Char → List Char → Bool
  | hay, needle =>
    if needle.isPrefixOf hay then true
    else
      match hay with
      | [] => false
      | _ :: t => strIncludes t needle

/-- The sensitivity test of `sanitizeForLog`: the lower-cased key contains
some lower-cased default sensitive field name. -/
def isSensitiveKey (key : List Char) : Bool :=
  defaultSensitiveFields.any fun f => strIncludes (key.map Char.toLower) (f.map Char.toLower)

/-- A JSON-like log value: string, number, boolean, null, array, or nested
plain object (a record of key/value entries). -/
inductive LogValue where
  | str (s : List Char)
  | num (q : ℚ)
  | boolVal (b : Bool)
  | null
  | arr (elems : List LogValue)
  | obj (fields : List (List Char × LogValue))

mutual

/-- Per-entry branch of `sanitizeForLog`: a string under a sensitive key is
replaced by its `sanitizeApiKey` form; a non-null non-array object value is
recursively sanitized; every other value (arrays included) is returned
unchanged. -/
def sanitizeEntryValue (key : List Char) : LogValue → LogValue
  | .str s => if isSensitiveKey key then .str (sanitizeApiKey s) else .str s
  | .obj g => .obj (sanitizeForLog g)
  | v => v

/-- Embeds `sanitizeForLog` (security utilities) over the entry list of the
input object, with the default sensitive-field list. -/
def sanitizeForLog : List (List Char × LogValue) → List (List Char × LogValue)
  | [] => []
  | (k, v) :: rest => (k, sanitizeEntryValue k v) :: sanitizeForLog rest

end

/-- A string `s` is stored under key `k` somewhere in `fields`, reachable
through nested objects only (the paths `sanitizeForLog` traverses). -/
inductive ReachesObj : List (List Char × LogValue) → List Char → List Char → Prop where
  | here {fields k s} : (k, LogValue.str s) ∈ fields → ReachesObj fields k s
  | nest {fields k' g k s} : (k', LogValue.obj g) ∈ fields → ReachesObj g k s →
      ReachesObj fields k s

/-- A string `s` is stored under key `k` at some nesting depth in `fields`,
arrays included: directly, inside a nested object, as an element of an
array held by `k`, or inside an object contained in an array. -/
inductive StoredUnder : List (List Char × LogValue) → List Char → List Char → Prop where
  | str {fields k s} : (k, LogValue.str s) ∈ fields → StoredUnder fields k s
  | inObj {fields k' g k s} : (k', LogValue.obj g) ∈ fields → StoredUnder g k s →
      StoredUnder fields k s
  | inArrStr {fields k es s} : (k, LogValue.arr es) ∈ fields → LogValue.str s ∈ es →
      StoredUnder fields k s
  | inArrObj {fields k' es g k s} : (k', LogValue.arr es) ∈ fields →
      LogValue.obj g ∈ es → StoredUnder g k s → StoredUnder fields k s

/-- The sample long API token used in the masking claims. -/
def secretToken : List Char := "secret-token:abc123456789".data

theorem substringOf_length_le {needle hay : List Char} (h : substringOf needle hay) :
    needle.length ≤ hay.length := by
  obtain ⟨l, r, rfl⟩ := h
  simp [List.length_append]
  omega

/-- C1 (counterexample): the claim quantifies over every token string, but a
token of length ≤ 8 (here `"abc"`) is returned unchanged by `sanitizeApiKey`,
so it is not "first 8 characters + ellipsis" and the full token value does
appear as a substring of the masked result. -/
theorem sanitizeApiKey_short_token_counterexample :
    sanitizeApiKey "abc".data = "abc".data ∧
    substringOf "abc".data (sanitizeApiKey "abc".data) ∧
    sanitizeApiKey "abc".data ≠ "abc".data.take 8 ++ "...".data := by
  refine ⟨by decide, ⟨[], [], by decide⟩, by decide⟩

/-- C1 (amended): for tokens longer than 8 characters `sanitizeApiKey`
returns the first 8 characters followed by an ellipsis; for tokens of length
≥ 12 the full token never occurs as a substring of the masked result;
nonempty tokens of length ≤ 8 are returned unchanged; and the token
`"secret-token:abc123456789"` masks to `"secret-t..."`, which contains
`"secret-t..."` and not the full token. -/
theorem sanitizeApiKey_masks (t : List Char) :
    (8 < t.length → sanitizeApiKey t = t.take 8 ++ "...".data) ∧
    (12 ≤ t.length → ¬ substringOf t (sanitizeApiKey t)) ∧
    (t ≠ [] → t.length ≤ 8 → sanitizeApiKey t = t) ∧
    sanitizeApiKey "secret-token:abc123456789".data = "secret-t...".data ∧
    substringOf "secret-t...".data (sanitizeApiKey "secret-token:abc123456789".data) ∧
    ¬ substringOf "secret-token:abc123456789".data
      (sanitizeApiKey "secret-token:abc123456789".data) := by
  have hshape : 8 < t.length → sanitizeApiKey t = t.take 8 ++ "...".data := by
    intro h
    have hne : t ≠ [] := by
      intro he; subst he; simp at h
    simp [sanitizeApiKey, hne]
    omega
  refine ⟨hshape, ?_, ?_, by decide, ⟨[], [], by decide⟩, ?_⟩
  · intro hlen hsub
    have h8 : 8 < t.length := by omega
    rw [hshape h8] at hsub
    have := substringOf_length_le hsub
    have htake : (t.take 8).length = 8 := by
      simp
      omega
    simp [List.length_append, htake] at this
    omega
  · intro hne hle
    simp [sanitizeApiKey, hne, hle]
  · intro hsub
    have := substringOf_length_le hsub
    rw [show sanitizeApiKey "secret-token:abc123456789".data = "secret-t...".data
      from by decide] at this
    simp at this

/-- C1 witness: instantiates the amended theorem at the length-25 token and
discharges the length hypotheses. -/
theorem sanitizeApiKey_masks_witness :
    8 < "secret-token:abc123456789".data.length ∧
    sanitizeApiKey "secret-token:abc123456789".data =
      "secret-token:abc123456789".data.take 8 ++ "...".data ∧
    ¬ substringOf "secret-token:abc123456789".data
      (sanitizeApiKey "secret-token:abc123456789".data) :=
  ⟨by decide, (sanitizeApiKey_masks "secret-token:abc123456789".data).1 (by decide),
    (sanitizeApiKey_masks "secret-token:abc123456789".data).2.1 (by decide)⟩

/-- C9: for strings of length ≥ 5, `maskAccountNumber` returns
`min (length-4) 4` asterisks followed by exactly the last 4 characters
(so at most 4 asterisks appear and only the last 4 input characters are
revealed); strings of length ≤ 4, the empty string included, are returned
unchanged. -/
theorem maskAccountNumber_spec (s : List Char) :
    (5 ≤ s.length →
      maskAccountNumber s =
        List.replicate (min (s.length - 4) 4) '*' ++ s.drop (s.length - 4) ∧
      (s.drop (s.length - 4)).length = 4 ∧
      (List.replicate (min (s.length - 4) 4) '*').length ≤ 4) ∧
    (s.length ≤ 4 → maskAccountNumber s = s) := by
  constructor
  · intro h5
    have hne : ¬ (s = [] ∨ s.length ≤ 4) := by
      push_neg
      constructor
      · intro he; subst he; simp at h5
      · omega
    refine ⟨by simp [maskAccountNumber, hne], ?_, ?_⟩
    · simp
      omega
    · simp
  · intro h4
    simp [maskAccountNumber, h4]

/-- C9 witness: the ten-character account number `"1234567890"` masks to
`"****7890"`. -/
theorem maskAccountNumber_spec_witness :
    5 ≤ "1234567890".data.length ∧
    maskAccountNumber "1234567890".data =
      List.replicate (min ("1234567890".data.length - 4) 4) '*' ++
        "1234567890".data.drop ("1234567890".data.length - 4) :=
  ⟨by decide, ((maskAccountNumber_spec "1234567890".data).1 (by decide)).1⟩

theorem abs_roundNearestEven_sub_le (q : ℚ) :
    |(roundNearestEven q : ℚ) - q| ≤ 1 / 2 := by
  have hq : q - (⌊q⌋ : ℚ) = Int.fract q := Int.self_sub_floor q
  rcases lt_trichotomy (Int.fract q) (1 / 2) with hlt | heq | hgt
  · have h0 : 0 ≤ Int.fract q := Int.fract_nonneg q
    unfold roundNearestEven
    rw [if_pos hlt, abs_le]
    constructor <;> linarith
  · unfold roundNearestEven
    rw [if_neg (by rw [heq]; norm_num), if_neg (by rw [heq]; norm_num)]
    split_ifs <;> rw [abs_le] <;> constructor <;> push_cast <;> linarith
  · have h1 : Int.fract q < 1 := Int.fract_lt_one q
    unfold roundNearestEven
    rw [if_neg (by push_neg; linarith), if_pos hgt, abs_le]
    constructor <;> push_cast <;> linarith

theorem int_log_eq_of_bounds {x : ℚ} {L : ℤ} (h1 : (2 : ℚ) ^ L ≤ x)
    (h2 : x < (2 : ℚ) ^ (L + 1)) : Int.log 2 x = L := by
  have hcast : ((2 : ℕ) : ℚ) = (2 : ℚ) := by norm_num
  have hx : 0 < x := lt_of_lt_of_le (zpow_pos (by norm_num) L) h1
  have hle : L ≤ Int.log 2 x := by
    have hmono := Int.log_mono_right (b := 2) (zpow_pos (by norm_num : (0:ℚ) < 2) L) h1
    have hzp : Int.log 2 ((2 : ℚ) ^ L) = L := by
      rw [← hcast]
      exact Int.log_zpow one_lt_two L
    omega
  have hlt : Int.log 2 x ≤ L := by
    by_contra hcon
    push_neg at hcon
    have h3 : ((2 : ℕ) : ℚ) ^ (L + 1) ≤ ((2 : ℕ) : ℚ) ^ Int.log 2 x :=
      zpow_le_zpow_right₀ (by norm_num) (by omega)
    have h4 := Int.zpow_log_le_self (b := 2) one_lt_two hx
    rw [hcast] at h3 h4
    linarith
  omega

theorem abs_roundDouble_sub_le {x : ℚ} (hx : x ≠ 0) :
    |roundDouble x - x| ≤ |x| / 2 ^ 53 := by
  have hcast : ((2 : ℕ) : ℚ) = (2 : ℚ) := by norm_num
  unfold roundDouble
  rw [if_neg hx]
  set e : ℤ := Int.log 2 |x| - 52 with he
  have h2e : (0 : ℚ) < 2 ^ e := zpow_pos (by norm_num) e
  have hxe : x / 2 ^ e * 2 ^ e = x := div_mul_cancel₀ x (ne_of_gt h2e)
  have hkey : |(roundNearestEven (x / 2 ^ e) : ℚ) * 2 ^ e - x| =
      |(roundNearestEven (x / 2 ^ e) : ℚ) - x / 2 ^ e| * 2 ^ e := by
    rw [show (roundNearestEven (x / 2 ^ e) : ℚ) * 2 ^ e - x =
      ((roundNearestEven (x / 2 ^ e) : ℚ) - x / 2 ^ e) * 2 ^ e from by rw [sub_mul, hxe],
      abs_mul, abs_of_pos h2e]
  rw [hkey]
  have hb := abs_roundNearestEven_sub_le (x / 2 ^ e)
  have hlog := Int.zpow_log_le_self (b := 2) one_lt_two (abs_pos.mpr hx)
  rw [hcast] at hlog
  calc |(roundNearestEven (x / 2 ^ e) : ℚ) - x / 2 ^ e| * 2 ^ e
      ≤ (1 / 2) * 2 ^ e := mul_le_mul_of_nonneg_right hb h2e.le
    _ = (2 : ℚ) ^ Int.log 2 |x| / 2 ^ (53 : ℕ) := by
        rw [he, zpow_sub₀ (by norm_num : (2:ℚ) ≠ 0),
          show (52 : ℤ) = ((52 : ℕ) : ℤ) from rfl, zpow_natCast,
          show ((2:ℚ) ^ (53 : ℕ)) = 2 ^ (52 : ℕ) * 2 from by ring]
        ring
    _ ≤ |x| / 2 ^ (53 : ℕ) := by gcongr

theorem roundDouble_eval {x : ℚ} {L n : ℤ} (hx : x ≠ 0)
    (hL : Int.log 2 |x| = L) (hn : roundNearestEven (x / 2 ^ (L - 52)) = n) :
    roundDouble x = (n : ℚ) * 2 ^ (L - 52) := by
  unfold roundDouble
  rw [if_neg hx, hL, hn]

theorem roundNearestEven_eq_up {q : ℚ} {n : ℤ} (h1 : (n : ℚ) + 1 / 2 < q)
    (h2 : q < (n : ℚ) + 1) : roundNearestEven q = n + 1 := by
  have hfl : ⌊q⌋ = n := by
    rw [Int.floor_eq_iff]
    constructor
    · linarith
    · linarith
  have hfr : Int.fract q = q - (n : ℚ) := by
    rw [← Int.self_sub_floor, hfl]
  unfold roundNearestEven
  rw [hfr, if_neg (by push_neg; linarith), if_pos (by linarith), hfl]

/-- C8 (counterexample): the double round trip is not the identity on the
whole float-safe integer range — at 7036874417766401 cents (below `2^53`)
the division by 100 rounds up to 70368744177664.015625, the multiplication
by 100 rounds up again to 7036874417766402, and `Math.round` returns
7036874417766402 ≠ 7036874417766401. -/
theorem dollars_cents_roundtrip_counterexample :
    dollarsToCents (centsToDollars (7036874417766401 : ℚ)) = (7036874417766402 : ℚ) ∧
    (7036874417766402 : ℚ) ≠ (7036874417766401 : ℚ) ∧
    (7036874417766401 : ℤ).natAbs ≤ 2 ^ 53 := by
  refine ⟨?_, by norm_num, by norm_num⟩
  have hx1pos : (0 : ℚ) < 7036874417766401 / 100 := by norm_num
  have hL1 : Int.log 2 |(7036874417766401 : ℚ) / 100| = 46 := by
    rw [abs_of_pos hx1pos]
    apply int_log_eq_of_bounds
    · rw [show ((2:ℚ) ^ (46:ℤ)) = 70368744177664 from by norm_num]
      norm_num
    · rw [show ((2:ℚ) ^ ((46:ℤ) + 1)) = 140737488355328 from by norm_num]
      norm_num
  have hrne1 : roundNearestEven ((7036874417766401 : ℚ) / 100 / 2 ^ ((46:ℤ) - 52)) =
      4503599627370497 := by
    have harg : (7036874417766401 : ℚ) / 100 / 2 ^ ((46:ℤ) - 52) =
        112589990684262416 / 25 := by
      rw [show ((46:ℤ) - 52) = (-6 : ℤ) from by norm_num,
        show ((2:ℚ) ^ (-6 : ℤ)) = 1 / 64 from by norm_num]
      norm_num
    rw [harg]
    have h := roundNearestEven_eq_up (n := 4503599627370496)
      (q := 112589990684262416 / 25) (by norm_num) (by norm_num)
    simpa using h
  have hcd : centsToDollars (7036874417766401 : ℚ) = 4503599627370497 / 64 := by
    unfold centsToDollars
    rw [roundDouble_eval (by norm_num) hL1 hrne1,
      show ((46:ℤ) - 52) = (-6 : ℤ) from by norm_num,
      show ((2:ℚ) ^ (-6 : ℤ)) = 1 / 64 from by norm_num]
    norm_num
  have hy : (4503599627370497 : ℚ) / 64 * 100 = 112589990684262425 / 16 := by
    norm_num
  have hypos : (0 : ℚ) < 112589990684262425 / 16 := by norm_num
  have hL2 : Int.log 2 |(4503599627370497 : ℚ) / 64 * 100| = 52 := by
    rw [hy, abs_of_pos hypos]
    apply int_log_eq_of_bounds
    · rw [show ((2:ℚ) ^ (52:ℤ)) = 4503599627370496 from by norm_num]
      norm_num
    · rw [show ((2:ℚ) ^ ((52:ℤ) + 1)) = 9007199254740992 from by norm_num]
      norm_num
  have hrne2 : roundNearestEven ((4503599627370497 : ℚ) / 64 * 100 / 2 ^ ((52:ℤ) - 52)) =
      7036874417766402 := by
    have harg : (4503599627370497 : ℚ) / 64 * 100 / 2 ^ ((52:ℤ) - 52) =
        112589990684262425 / 16 := by
      rw [show ((52:ℤ) - 52) = (0 : ℤ) from by norm_num]
      norm_num
    rw [harg]
    have h := roundNearestEven_eq_up (n := 7036874417766401)
      (q := 112589990684262425 / 16) (by norm_num) (by norm_num)
    simpa using h
  have hrd2 : roundDouble ((4503599627370497 : ℚ) / 64 * 100) = 7036874417766402 := by
    rw [roundDouble_eval (by norm_num) hL2 hrne2,
      show ((52:ℤ) - 52) = (0 : ℤ) from by norm_num]
    norm_num
  rw [hcd]
  unfold dollarsToCents jsRound
  rw [hrd2]
  have hfl : ⌊(7036874417766402 : ℚ) + 1 / 2⌋ = 7036874417766402 := by
    rw [Int.floor_eq_iff]
    constructor <;> push_cast <;> norm_num
  rw [hfl]
  norm_num

/-- C8 (amended): the cents-to-dollars-and-back round trip is the identity
for every integer amount within `|c| ≤ 2^50` (where the two binary64
rounding errors stay below half a cent); on the full float-safe range it
can fail, e.g. at 7036874417766401. -/
theorem dollars_cents_roundtrip (c : ℤ) (h : c.natAbs ≤ 2 ^ 50) :
    dollarsToCents (centsToDollars (c : ℚ)) = (c : ℚ) := by
  by_cases hc : c = 0
  · subst hc
    have h1 : centsToDollars ((0 : ℤ) : ℚ) = 0 := by
      unfold centsToDollars roundDouble
      norm_num
    rw [h1]
    unfold dollarsToCents roundDouble jsRound
    have hfl : ⌊(0 : ℚ) + 1 / 2⌋ = 0 := by
      rw [Int.floor_eq_iff]
      norm_num
    norm_num [hfl]
  · have hcQ : ((c : ℚ)) ≠ 0 := Int.cast_ne_zero.mpr hc
    have habsZ : |c| ≤ (2 : ℤ) ^ 50 := by
      rw [Int.abs_eq_natAbs]
      exact_mod_cast h
    have habs : |(c : ℚ)| ≤ 2 ^ 50 := by
      rw [← Int.cast_abs]
      exact_mod_cast habsZ
    have honeZ : (1 : ℤ) ≤ |c| := by
      rw [Int.abs_eq_natAbs]
      omega
    have hone : (1 : ℚ) ≤ |(c : ℚ)| := by
      rw [← Int.cast_abs]
      exact_mod_cast honeZ
    set x1 : ℚ := (c : ℚ) / 100 with hx1def
    have hx1 : x1 ≠ 0 := div_ne_zero hcQ (by norm_num)
    have h1 := abs_roundDouble_sub_le hx1
    set d1 : ℚ := roundDouble x1 with hd1
    have habsx1 : |x1| = |(c : ℚ)| / 100 := by
      rw [hx1def, abs_div]
      norm_num
    have hyc : |d1 * 100 - (c : ℚ)| ≤ |(c : ℚ)| / 2 ^ 53 := by
      have hrw : d1 * 100 - (c : ℚ) = (d1 - x1) * 100 := by
        rw [hx1def]
        ring
      have habs100 : |(100 : ℚ)| = 100 := by norm_num
      rw [hrw, abs_mul, habs100]
      calc |d1 - x1| * 100 ≤ |x1| / 2 ^ 53 * 100 :=
            mul_le_mul_of_nonneg_right h1 (by norm_num)
        _ = |(c : ℚ)| / 2 ^ 53 := by
            rw [habsx1]
            ring
    have h18 : |d1 * 100 - (c : ℚ)| ≤ 1 / 8 := by
      refine le_trans hyc ?_
      linarith
    have hyne : d1 * 100 ≠ 0 := by
      intro h0
      rw [h0, zero_sub, abs_neg] at h18
      linarith
    have h2 := abs_roundDouble_sub_le hyne
    set d2 : ℚ := roundDouble (d1 * 100) with hd2
    have hyabs : |d1 * 100| ≤ 2 ^ 50 + 1 := by
      have htri := abs_sub_abs_le_abs_sub (d1 * 100) (c : ℚ)
      linarith
    have h2' : |d2 - d1 * 100| ≤ 1 / 4 := by
      refine le_trans h2 ?_
      have hstep : |d1 * 100| / 2 ^ 53 ≤ ((2:ℚ) ^ 50 + 1) / 2 ^ 53 := by gcongr
      refine le_trans hstep (by norm_num)
    have hd2c : |d2 - (c : ℚ)| ≤ 3 / 8 := by
      have htri := abs_sub_le d2 (d1 * 100) (c : ℚ)
      linarith
    have hfloor : ⌊d2 + 1 / 2⌋ = c := by
      rw [Int.floor_eq_iff, abs_le] at *
      constructor
      · linarith [hd2c.1]
      · linarith [hd2c.2]
    have hcd : centsToDollars (c : ℚ) = d1 := by
      rw [hd1, hx1def]
      rfl
    have hdc : dollarsToCents d1 = ((⌊d2 + 1 / 2⌋ : ℤ) : ℚ) := by
      rw [hd2]
      rfl
    rw [hcd, hdc, hfloor]

/-- C8 witness: the round trip at 123456 cents, inside the proven range. -/
theorem dollars_cents_roundtrip_witness :
    (123456 : ℤ).natAbs ≤ 2 ^ 50 ∧
    dollarsToCents (centsToDollars ((123456 : ℤ) : ℚ)) = ((123456 : ℤ) : ℚ) :=
  ⟨by norm_num, dollars_cents_roundtrip 123456 (by norm_num)⟩

/-- C10: `calculatePercentageChange` returns `(current - previous) / |previous|`
whenever `previous ≠ 0`; at `previous = 0` it returns 1 when `current > 0`
and 0 otherwise, so a drop from zero to a negative amount is reported as 0
and the divisor is never zero. -/
theorem calculatePercentageChange_spec (current previous : ℚ) :
    (previous ≠ 0 →
      calculatePercentageChange current previous = (current - previous) / |previous|) ∧
    (previous = 0 → 0 < current → calculatePercentageChange current previous = 1) ∧
    (previous = 0 → ¬ 0 < current → calculatePercentageChange current previous = 0) := by
  refine ⟨?_, ?_, ?_⟩
  · intro h
    simp [calculatePercentageChange, h]
  · intro h hc
    simp [calculatePercentageChange, h, hc]
  · intro h hc
    simp [calculatePercentageChange, h, hc]

/-- C10 witness: instantiated at the three guard branches, including the
drop from zero to a negative amount. -/
theorem calculatePercentageChange_spec_witness :
    calculatePercentageChange 120000 100000 = (120000 - 100000) / |(100000 : ℚ)| ∧
    calculatePercentageChange 100000 0 = 1 ∧
    calculatePercentageChange (-5) 0 = 0 :=
  ⟨(calculatePercentageChange_spec 120000 100000).1 (by norm_num),
    (calculatePercentageChange_spec 100000 0).2.1 rfl (by norm_num),
    (calculatePercentageChange_spec (-5) 0).2.2 rfl (by norm_num)⟩

theorem jsIsInteger_iff (n : JsNumber) :
    jsIsInteger n = true ↔ ∃ k : ℤ, n = JsNumber.fin (k : ℚ) := by
  cases n with
  | fin q =>
    simp [jsIsInteger, Rat.den_eq_one_iff]
    constructor
    · intro h
      exact ⟨q.num, h.symm⟩
    · rintro ⟨k, rfl⟩
      simp
  | nan => simp [jsIsInteger]
  | posInf => simp [jsIsInteger]
  | negInf => simp [jsIsInteger]

/-- C4: the `limit` field of `TransactionQuerySchema` accepts a supplied
number iff it is an integer between 1 and 1000 inclusive, and defaults to
100 when absent; the `offset` field accepts a supplied number iff it is a
non-negative integer, and defaults to 0 when absent. A rejected supplied
value never parses. -/
theorem transactionQuery_pagination_spec :
    (∀ n, transactionLimitParse (some n) = some n ↔
      ∃ k : ℤ, n = JsNumber.fin (k : ℚ) ∧ 1 ≤ k ∧ k ≤ 1000) ∧
    (∀ n, transactionLimitParse (some n) = some n ∨ transactionLimitParse (some n) = none) ∧
    transactionLimitParse none = some (JsNumber.fin 100) ∧
    (∀ n, transactionOffsetParse (some n) = some n ↔
      ∃ k : ℤ, n = JsNumber.fin (k : ℚ) ∧ 0 ≤ k) ∧
    (∀ n, transactionOffsetParse (some n) = some n ∨ transactionOffsetParse (some n) = none) ∧
    transactionOffsetParse none = some (JsNumber.fin 0) := by
  have hlim : ∀ n, transactionLimitAccepts n = true ↔
      ∃ k : ℤ, n = JsNumber.fin (k : ℚ) ∧ 1 ≤ k ∧ k ≤ 1000 := by
    intro n
    constructor
    · intro h
      simp [transactionLimitAccepts] at h
      obtain ⟨⟨⟨hz, hint⟩, hge⟩, hle⟩ := h
      obtain ⟨k, rfl⟩ := (jsIsInteger_iff n).mp hint
      refine ⟨k, rfl, ?_, ?_⟩
      · simp [jsGe] at hge
        exact_mod_cast hge
      · simp [jsLe] at hle
        exact_mod_cast hle
    · rintro ⟨k, rfl, h1, h2⟩
      simp [transactionLimitAccepts, zNumberAccepts, jsGe, jsLe]
      refine ⟨⟨(jsIsInteger_iff _).mpr ⟨k, rfl⟩, by exact_mod_cast h1⟩, by exact_mod_cast h2⟩
  have hoff : ∀ n, transactionOffsetAccepts n = true ↔
      ∃ k : ℤ, n = JsNumber.fin (k : ℚ) ∧ 0 ≤ k := by
    intro n
    constructor
    · intro h
      simp [transactionOffsetAccepts] at h
      obtain ⟨k, rfl⟩ := (jsIsInteger_iff n).mp h.1.2
      refine ⟨k, rfl, ?_⟩
      have := h.2
      simp [jsGe] at this
      exact_mod_cast this
    · rintro ⟨k, rfl, h0⟩
      simp [transactionOffsetAccepts, zNumberAccepts, jsGe]
      exact ⟨(jsIsInteger_iff _).mpr ⟨k, rfl⟩, by exact_mod_cast h0⟩
  refine ⟨?_, ?_, rfl, ?_, ?_, rfl⟩
  · intro n
    constructor
    · intro h
      by_cases ha : transactionLimitAccepts n = true
      · exact (hlim n).mp ha
      · simp [transactionLimitParse, ha] at h
    · intro h
      simp [transactionLimitParse, (hlim n).mpr h]
  · intro n
    by_cases ha : transactionLimitAccepts n = true
    · exact Or.inl (by simp [transactionLimitParse, ha])
    · exact Or.inr (by simp [transactionLimitParse, ha])
  · intro n
    constructor
    · intro h
      by_cases ha : transactionOffsetAccepts n = true
      · exact (hoff n).mp ha
      · simp [transactionOffsetParse, ha] at h
    · intro h
      simp [transactionOffsetParse, (hoff n).mpr h]
  · intro n
    by_cases ha : transactionOffsetAccepts n = true
    · exact Or.inl (by simp [transactionOffsetParse, ha])
    · exact Or.inr (by simp [transactionOffsetParse, ha])

/-- C4 witness: concrete pagination inputs — limit 50 accepted, limit 2000
rejected, absent fields take the defaults 100 and 0. -/
theorem transactionQuery_pagination_spec_witness :
    transactionLimitParse (some (JsNumber.fin 50)) = some (JsNumber.fin 50) ∧
    transactionLimitParse (some (JsNumber.fin 2000)) = none ∧
    transactionLimitParse none = some (JsNumber.fin 100) ∧
    transactionOffsetParse (some (JsNumber.fin 10)) = some (JsNumber.fin 10) ∧
    transactionOffsetParse (some (JsNumber.fin (-1))) = none ∧
    transactionOffsetParse none = some (JsNumber.fin 0) := by
  refine ⟨(transactionQuery_pagination_spec.1 (JsNumber.fin 50)).mpr
      ⟨50, by norm_num, by norm_num, by norm_num⟩,
    ?_, transactionQuery_pagination_spec.2.2.1,
    (transactionQuery_pagination_spec.2.2.2.1 (JsNumber.fin 10)).mpr
      ⟨10, by norm_num, by norm_num⟩,
    ?_, transactionQuery_pagination_spec.2.2.2.2.2⟩
  · rcases transactionQuery_pagination_spec.2.1 (JsNumber.fin 2000) with h | h
    · exfalso
      obtain ⟨k, hk, _, hle⟩ := (transactionQuery_pagination_spec.1 _).mp h
      have : (k : ℚ) = 2000 := by
        injection hk.symm
      have : k = 2000 := by exact_mod_cast this
      omega
    · exact h
  · rcases transactionQuery_pagination_spec.2.2.2.2.1 (JsNumber.fin (-1)) with h | h
    · exfalso
      obtain ⟨k, hk, h0⟩ := (transactionQuery_pagination_spec.2.2.2.1 _).mp h
      have : (k : ℚ) = -1 := by
        injection hk.symm
      have : k = -1 := by exact_mod_cast this
      omega
    · exact h

/-- C5: `CentsSchema` (`z.number().int().finite()`) accepts a number iff it
is a finite integer: every integer (zero and negatives included) validates,
and every `NaN`, infinity and fractional value is rejected. -/
theorem centsSchema_spec :
    (∀ n, centsSchemaAccepts n = true ↔ ∃ k : ℤ, n = JsNumber.fin (k : ℚ)) ∧
    centsSchemaAccepts JsNumber.nan = false ∧
    centsSchemaAccepts JsNumber.posInf = false ∧
    centsSchemaAccepts JsNumber.negInf = false ∧
    (∀ q : ℚ, q.den ≠ 1 → centsSchemaAccepts (JsNumber.fin q) = false) ∧
    (∀ k : ℤ, centsSchemaAccepts (JsNumber.fin (k : ℚ)) = true) := by
  have hiff : ∀ n, centsSchemaAccepts n = true ↔ ∃ k : ℤ, n = JsNumber.fin (k : ℚ) := by
    intro n
    constructor
    · intro h
      simp [centsSchemaAccepts] at h
      exact (jsIsInteger_iff n).mp h.1.2
    · rintro ⟨k, rfl⟩
      simp [centsSchemaAccepts, zNumberAccepts, jsIsFinite]
      exact (jsIsInteger_iff _).mpr ⟨k, rfl⟩
  refine ⟨hiff, rfl, rfl, rfl, ?_, ?_⟩
  · intro q hq
    by_contra h
    simp at h
    obtain ⟨k, hk⟩ := (hiff _).mp h
    have : q = (k : ℚ) := by injection hk
    exact hq (this ▸ Rat.den_intCast k)
  · intro k
    exact (hiff _).mpr ⟨k, rfl⟩

/-- C5 witness: 0, −500 and 12345 validate; one half, `NaN` and the
infinities are rejected. -/
theorem centsSchema_spec_witness :
    centsSchemaAccepts (JsNumber.fin ((0 : ℤ) : ℚ)) = true ∧
    centsSchemaAccepts (JsNumber.fin ((-500 : ℤ) : ℚ)) = true ∧
    centsSchemaAccepts (JsNumber.fin (1 / 2 : ℚ)) = false ∧
    centsSchemaAccepts JsNumber.nan = false :=
  ⟨centsSchema_spec.2.2.2.2.2 0, centsSchema_spec.2.2.2.2.2 (-500),
    centsSchema_spec.2.2.2.2.1 (1 / 2) (by norm_num), centsSchema_spec.2.1⟩

/-- C3 (counterexample): a `success: false` envelope whose error message is
the empty string throws an `ApiClientError` whose message is `"API error"`,
not the envelope's message — the claim's "carrying the envelope error's
message" fails at this input. -/
theorem apiRequest_empty_message_counterexample :
    processResponse (α := Unit) (δ := Unit) 400
        (ResponseBody.json (ApiEnvelope.failure "".data "SOME_CODE".data none)) =
      Except.error ⟨"API error".data, some 400, some "SOME_CODE".data, none⟩ ∧
    "API error".data ≠ "".data :=
  ⟨rfl, by decide⟩

/-- C3 (amended): `apiRequest`'s response handling returns exactly the
envelope's `data` on `success: true`; on `success: false` it throws an
`ApiClientError` carrying the envelope error's message when that message is
nonempty (an empty message is replaced by `"API error"`), together with the
error's code and details; a malformed body throws with code
`INVALID_RESPONSE`; and no value is ever returned in the two failure
cases. -/
theorem apiRequest_envelope_spec {α δ : Type} (status : Nat) (d : α) (m c : List Char)
    (det : Option δ) :
    processResponse status (ResponseBody.json (ApiEnvelope.success d) : ResponseBody α δ) =
      Except.ok d ∧
    (m ≠ [] → processResponse status (ResponseBody.json (ApiEnvelope.failure m c det) :
        ResponseBody α δ) = Except.error ⟨m, some status, some c, det⟩) ∧
    (m = [] → processResponse status (ResponseBody.json (ApiEnvelope.failure m c det) :
        ResponseBody α δ) = Except.error ⟨"API error".data, some status, some c, det⟩) ∧
    processResponse status (ResponseBody.malformed : ResponseBody α δ) =
      Except.error ⟨"Invalid JSON response".data, some status, some "INVALID_RESPONSE".data,
        none⟩ ∧
    (∀ v : α, processResponse status (ResponseBody.json (ApiEnvelope.failure m c det) :
        ResponseBody α δ) ≠ Except.ok v) ∧
    (∀ v : α, processResponse status (ResponseBody.malformed : ResponseBody α δ) ≠
      Except.ok v) := by
  refine ⟨rfl, ?_, ?_, rfl, ?_, ?_⟩
  · intro hm
    simp [processResponse, hm]
  · intro hm
    simp [processResponse, hm]
  · intro v
    simp [processResponse]
  · intro v
    simp [processResponse]

/-- C3 witness: the amended theorem at a concrete nonempty-message failure
envelope. -/
theorem apiRequest_envelope_spec_witness :
    processResponse (α := Nat) (δ := Unit) 503
        (ResponseBody.json (ApiEnvelope.failure "boom".data "E_BOOM".data none)) =
      Except.error ⟨"boom".data, some 503, some "E_BOOM".data, none⟩ :=
  (apiRequest_envelope_spec (α := Nat) (δ := Unit) 503 0 "boom".data "E_BOOM".data
    none).2.1 (by decide)

/-- C2: `retryRequest` with the default cap of 3 attempts rethrows a
4xx-status `ApiClientError` from the first attempt immediately, sleeping no
delay and consulting no later attempt; on persistently transient failures
it sleeps `baseDelay * 2 ^ k` before attempt `k + 1`, stops after 3 total
attempts, and surfaces the last error; a transient failure followed by a
success returns that success after a single base delay. -/
theorem retryRequest_policy {α δ : Type} (f : Nat → Except (ThrownError δ) α)
    (baseDelay : Nat) :
    (∀ m s c det, 400 ≤ s → s < 500 →
      f 0 = Except.error (ThrownError.api ⟨m, some s, c, det⟩) →
      retryRequest f 3 baseDelay = (Except.error (ThrownError.api ⟨m, some s, c, det⟩), [])) ∧
    (∀ e0 e1 e2, noRetryError e0 = false → noRetryError e1 = false →
      noRetryError e2 = false →
      f 0 = Except.error e0 → f 1 = Except.error e1 → f 2 = Except.error e2 →
      retryRequest f 3 baseDelay =
        (Except.error e2, [baseDelay * 2 ^ 0, baseDelay * 2 ^ 1])) ∧
    (∀ e0 v, noRetryError e0 = false → f 0 = Except.error e0 → f 1 = Except.ok v →
      retryRequest f 3 baseDelay = (Except.ok v, [baseDelay * 2 ^ 0])) := by
  refine ⟨?_, ?_, ?_⟩
  · intro m s c det h4 h5 hf0
    have hnr : noRetryError (ThrownError.api ⟨m, some s, c, det⟩ : ThrownError δ) = true := by
      simp [noRetryError]
      omega
    simp [retryRequest, retryLoop, hf0, hnr]
  · intro e0 e1 e2 h0 h1 h2 hf0 hf1 hf2
    simp [retryRequest, retryLoop, hf0, hf1, hf2, h0, h1, h2]
  · intro e0 v h0 hf0 hf1
    simp [retryRequest, retryLoop, hf0, hf1, h0]

/-- C2 witness: with every attempt failing with a plain network error and
base delay 10, `retryRequest` makes 3 attempts, sleeps 10 then 20, and
surfaces the last error. -/
theorem retryRequest_policy_witness :
    retryRequest (fun _ => Except.error (ThrownError.plain "ECONNRESET".data) :
        Nat → Except (ThrownError Unit) Nat) 3 10 =
      (Except.error (ThrownError.plain "ECONNRESET".data), [10 * 2 ^ 0, 10 * 2 ^ 1]) :=
  (retryRequest_policy (fun _ => Except.error (ThrownError.plain "ECONNRESET".data))
    10).2.1 (ThrownError.plain "ECONNRESET".data) (ThrownError.plain "ECONNRESET".data)
    (ThrownError.plain "ECONNRESET".data) rfl rfl rfl rfl rfl rfl

theorem getField_setField_self (l : List (List Char × List Char)) (k v : List Char) :
    getField (setField l k v) k = some v := by
  induction l with
  | nil => simp [setField, getField]
  | cons hd tl ih =>
    obtain ⟨k', v'⟩ := hd
    by_cases h : k' = k
    · simp [setField, getField, h]
    · simp [setField, getField, h, ih]

theorem getField_setField_ne (l : List (List Char × List Char)) {k k' : List Char}
    (v : List Char) (h : k' ≠ k) : getField (setField l k v) k' = getField l k' := by
  induction l with
  | nil =>
    have : ¬ k = k' := fun he => h he.symm
    simp [setField, getField, this]
  | cons hd tl ih =>
    obtain ⟨k₀, v₀⟩ := hd
    by_cases h0 : k₀ = k
    · subst h0
      have : ¬ k₀ = k' := fun he => h he.symm
      simp [setField, getField, this]
    · simp [setField, getField, h0, ih]

theorem setField_map_fst (l : List (List Char × List Char)) (k v : List Char) :
    (setField l k v).map Prod.fst =
      if k ∈ l.map Prod.fst then l.map Prod.fst else l.map Prod.fst ++ [k] := by
  induction l with
  | nil => simp [setField]
  | cons hd tl ih =>
    obtain ⟨k₀, v₀⟩ := hd
    by_cases h0 : k₀ = k
    · simp [setField, h0]
    · have hne : ¬ k = k₀ := fun he => h0 he.symm
      by_cases hmem : k ∈ tl.map Prod.fst
      · simp [setField, h0, ih, hmem, hne]
      · simp [setField, h0, ih, hmem, hne]

theorem nodup_setField_map_fst {l : List (List Char × List Char)} (k v : List Char)
    (h : (l.map Prod.fst).Nodup) : ((setField l k v).map Prod.fst).Nodup := by
  rw [setField_map_fst]
  by_cases hmem : k ∈ l.map Prod.fst
  · simpa [hmem] using h
  · simp [hmem, List.nodup_append, h]

theorem getField_buildFields_isSome (issues : List ZodIssue) :
    ∀ acc k, (getField acc k).isSome = true →
      (getField (buildFields issues acc) k).isSome = true := by
  induction issues with
  | nil => intro acc k h; simpa [buildFields] using h
  | cons i rest ih =>
    intro acc k h
    simp only [buildFields]
    apply ih
    by_cases he : dotJoin i.path = k
    · subst he
      simp [getField_setField_self]
    · rw [getField_setField_ne _ _ (fun hx => he hx.symm)]
      exact h

theorem mem_getField_buildFields (issues : List ZodIssue) :
    ∀ acc i, i ∈ issues →
      (getField (buildFields issues acc) (dotJoin i.path)).isSome = true := by
  induction issues with
  | nil => intro acc i h; simp at h
  | cons i₀ rest ih =>
    intro acc i h
    rcases List.mem_cons.mp h with h | h
    · subst h
      simp only [buildFields]
      apply getField_buildFields_isSome
      simp [getField_setField_self]
    · simp only [buildFields]
      exact ih _ i h

theorem getField_buildFields_eq (issues : List ZodIssue) :
    ∀ acc k v, getField (buildFields issues acc) k = some v →
      (∃ i, i ∈ issues ∧ dotJoin i.path = k ∧ i.message = v) ∨ getField acc k = some v := by
  induction issues with
  | nil => intro acc k v h; exact Or.inr (by simpa [buildFields] using h)
  | cons i₀ rest ih =>
    intro acc k v h
    simp only [buildFields] at h
    rcases ih _ k v h with ⟨i, hmem, hpath, hmsg⟩ | h
    · exact Or.inl ⟨i, List.mem_cons_of_mem _ hmem, hpath, hmsg⟩
    · by_cases he : dotJoin i₀.path = k
      · subst he
        rw [getField_setField_self] at h
        exact Or.inl ⟨i₀, List.mem_cons_self _ _, rfl, by injection h⟩
      · rw [getField_setField_ne _ _ (fun hx => he hx.symm)] at h
        exact Or.inr h

theorem mem_map_fst_buildFields (issues : List ZodIssue) :
    ∀ acc k, k ∈ (buildFields issues acc).map Prod.fst →
      k ∈ acc.map Prod.fst ∨ ∃ i, i ∈ issues ∧ dotJoin i.path = k := by
  induction issues with
  | nil => intro acc k h; exact Or.inl (by simpa [buildFields] using h)
  | cons i₀ rest ih =>
    intro acc k h
    simp only [buildFields] at h
    rcases ih _ k h with h | ⟨i, hmem, hpath⟩
    · rw [setField_map_fst] at h
      by_cases hmem : dotJoin i₀.path ∈ acc.map Prod.fst
      · rw [if_pos hmem] at h
        exact Or.inl h
      · rw [if_neg hmem] at h
        rcases List.mem_append.mp h with h | h
        · exact Or.inl h
        · have hk : k = dotJoin i₀.path := by simpa using h
          exact Or.inr ⟨i₀, List.mem_cons_self _ _, hk.symm⟩
    · exact Or.inr ⟨i, List.mem_cons_of_mem _ hmem, hpath⟩

theorem nodup_buildFields (issues : List ZodIssue) :
    ∀ acc, (acc.map Prod.fst).Nodup → ((buildFields issues acc).map Prod.fst).Nodup := by
  induction issues with
  | nil => intro acc h; simpa [buildFields] using h
  | cons i₀ rest ih =>
    intro acc h
    simp only [buildFields]
    exact ih _ (nodup_setField_map_fst _ _ h)

/-- C6: `safeValidate` yields a tagged success-or-error result mirroring the
schema outcome for every input, without any exceptional path, and
`formatValidationError` always produces the message `"Validation failed"`
together with a fields record that has one entry per failing field: every
issue's dot-joined path is a key holding the message of an issue with that
same path, the keys are pairwise distinct, and every key is the dot-joined
path of some issue. -/
theorem safeValidate_formatValidationError_spec {ι ω : Type}
    (schemaParse : ι → Except ZodError ω) (d : ι) (e : ZodError) :
    ((∃ out, safeValidate schemaParse d = SafeResult.ok out ∧
        schemaParse d = Except.ok out) ∨
      (∃ err, safeValidate schemaParse d = SafeResult.err err ∧
        schemaParse d = Except.error err)) ∧
    (formatValidationError e).1 = "Validation failed".data ∧
    (∀ i, i ∈ e.errors → ∃ i', i' ∈ e.errors ∧ dotJoin i'.path = dotJoin i.path ∧
      getField (formatValidationError e).2 (dotJoin i.path) = some i'.message) ∧
    ((formatValidationError e).2.map Prod.fst).Nodup ∧
    (∀ k, k ∈ (formatValidationError e).2.map Prod.fst →
      ∃ i, i ∈ e.errors ∧ dotJoin i.path = k) := by
  refine ⟨?_, rfl, ?_, ?_, ?_⟩
  · cases h : schemaParse d with
    | ok out => exact Or.inl ⟨out, by simp [safeValidate, h], rfl⟩
    | error err => exact Or.inr ⟨err, by simp [safeValidate, h], rfl⟩
  · intro i hi
    have hsome := mem_getField_buildFields e.errors [] i hi
    obtain ⟨v, hv⟩ := Option.isSome_iff_exists.mp hsome
    rcases getField_buildFields_eq e.errors [] _ v hv with ⟨i', hmem, hpath, hmsg⟩ | habs
    · exact ⟨i', hmem, hpath, by simpa [formatValidationError, hmsg] using hv⟩
    · simp [getField] at habs
  · exact nodup_buildFields e.errors [] (by simp)
  · intro k hk
    rcases mem_map_fst_buildFields e.errors [] k hk with h | h
    · simp at h
    · exact h

/-- C6 witness: the spec applied to a one-issue error on field `limit` and
a schema rejecting its input with that error. -/
theorem safeValidate_formatValidationError_spec_witness :
    sampleIssue ∈ sampleZodError.errors ∧
    ∃ i', i' ∈ sampleZodError.errors ∧ dotJoin i'.path = dotJoin sampleIssue.path ∧
      getField (formatValidationError sampleZodError).2 (dotJoin sampleIssue.path) =
        some i'.message := by
  have h := (safeValidate_formatValidationError_spec (ω := Unit)
    (fun _ : Unit => Except.error sampleZodError) () sampleZodError).2.2.1
  exact ⟨by simp [sampleZodError], h sampleIssue (by simp [sampleZodError])⟩

theorem sanitizeForLog_nil : sanitizeForLog [] = [] := by
  simp [sanitizeForLog]

theorem sanitizeForLog_cons (k : List Char) (v : LogValue)
    (rest : List (List Char × LogValue)) :
    sanitizeForLog ((k, v) :: rest) = (k, sanitizeEntryValue k v) :: sanitizeForLog rest := by
  simp [sanitizeForLog]

theorem sanitizeEntryValue_str (k s : List Char) :
    sanitizeEntryValue k (LogValue.str s) =
      if isSensitiveKey k then LogValue.str (sanitizeApiKey s) else LogValue.str s := by
  simp [sanitizeEntryValue]

theorem sanitizeEntryValue_obj (k : List Char) (g : List (List Char × LogValue)) :
    sanitizeEntryValue k (LogValue.obj g) = LogValue.obj (sanitizeForLog g) := by
  simp [sanitizeEntryValue]

theorem sanitizeEntryValue_other (k : List Char) (v : LogValue)
    (hs : ∀ s, v ≠ LogValue.str s) (hg : ∀ g, v ≠ LogValue.obj g) :
    sanitizeEntryValue k v = v := by
  cases v with
  | str s => exact absurd rfl (hs s)
  | obj g => exact absurd rfl (hg g)
  | num q => simp [sanitizeEntryValue]
  | boolVal b => simp [sanitizeEntryValue]
  | null => simp [sanitizeEntryValue]
  | arr es => simp [sanitizeEntryValue]

theorem mem_sanitizeForLog_of_mem {fields : List (List Char × LogValue)}
    {k : List Char} {v : LogValue} (h : (k, v) ∈ fields) :
    (k, sanitizeEntryValue k v) ∈ sanitizeForLog fields := by
  induction fields with
  | nil => simp at h
  | cons hd tl ih =>
    obtain ⟨k₀, v₀⟩ := hd
    rw [sanitizeForLog_cons]
    rcases List.mem_cons.mp h with h | h
    · injection h with h1 h2
      subst h1; subst h2
      exact List.mem_cons_self _ _
    · exact List.mem_cons_of_mem _ (ih h)

theorem mem_sanitizeForLog_elim {fields : List (List Char × LogValue)}
    {k : List Char} {w : LogValue} (h : (k, w) ∈ sanitizeForLog fields) :
    ∃ v, (k, v) ∈ fields ∧ w = sanitizeEntryValue k v := by
  induction fields with
  | nil => rw [sanitizeForLog_nil] at h; simp at h
  | cons hd tl ih =>
    obtain ⟨k₀, v₀⟩ := hd
    rw [sanitizeForLog_cons] at h
    rcases List.mem_cons.mp h with h | h
    · injection h with h1 h2
      subst h1
      exact ⟨v₀, List.mem_cons_self _ _, h2⟩
    · obtain ⟨v, hv, hw⟩ := ih h
      exact ⟨v, List.mem_cons_of_mem _ hv, hw⟩

theorem reachesObj_sanitizeForLog {l : List (List Char × LogValue)} {k s : List Char}
    (h : ReachesObj l k s) :
    ∀ fields, l = sanitizeForLog fields → isSensitiveKey k = true →
      ∃ t, ReachesObj fields k t ∧ s = sanitizeApiKey t := by
  induction h with
  | here hmem =>
    intro fields hl hsens
    subst hl
    obtain ⟨v, hv, hw⟩ := mem_sanitizeForLog_elim hmem
    cases v with
    | str t =>
      rw [sanitizeEntryValue_str, if_pos hsens] at hw
      injection hw with hw
      exact ⟨t, ReachesObj.here hv, hw⟩
    | obj g => rw [sanitizeEntryValue_obj] at hw; exact absurd hw (by simp)
    | num q => simp [sanitizeEntryValue] at hw
    | boolVal b => simp [sanitizeEntryValue] at hw
    | null => simp [sanitizeEntryValue] at hw
    | arr es => simp [sanitizeEntryValue] at hw
  | nest hmem hsub ih =>
    intro fields hl hsens
    subst hl
    obtain ⟨v, hv, hw⟩ := mem_sanitizeForLog_elim hmem
    cases v with
    | obj g =>
      rw [sanitizeEntryValue_obj] at hw
      injection hw with hw
      obtain ⟨t, hreach, hst⟩ := ih g hw hsens
      exact ⟨t, ReachesObj.nest hv hreach, hst⟩
    | str t =>
      rw [sanitizeEntryValue_str] at hw
      split at hw <;> exact absurd hw (by simp)
    | num q => simp [sanitizeEntryValue] at hw
    | boolVal b => simp [sanitizeEntryValue] at hw
    | null => simp [sanitizeEntryValue] at hw
    | arr es => simp [sanitizeEntryValue] at hw

/-- C7 (counterexample): `sanitizeForLog` does not traverse arrays, so the
long secret stored under the sensitive key `"token"` at nesting depth 1
(inside an array) appears unchanged in the result even though its
`sanitizeApiKey` form differs — the claim's "at any nesting depth" masking
guarantee fails at this input. -/
theorem sanitizeForLog_array_counterexample :
    sanitizeForLog [("token".data, LogValue.arr [LogValue.str secretToken])] =
      [("token".data, LogValue.arr [LogValue.str secretToken])] ∧
    isSensitiveKey "token".data = true ∧
    StoredUnder [("token".data, LogValue.arr [LogValue.str secretToken])]
      "token".data secretToken ∧
    sanitizeApiKey secretToken ≠ secretToken := by
  refine ⟨?_, by decide, ?_, by decide⟩
  · rw [sanitizeForLog_cons, sanitizeForLog_nil]
    simp [sanitizeEntryValue]
  · exact StoredUnder.inArrStr (List.mem_cons_self _ _) (List.mem_cons_self _ _)

/-- C7 (amended): for every input object, `sanitizeForLog` replaces every
string value held directly under a sensitive key by its `sanitizeApiKey`
form, keeps non-sensitive string values and all non-string non-object
values (arrays included) unchanged, recursively sanitizes nested object
values, and — through nested objects, the only paths it traverses — every
string found under a sensitive key in the result is the `sanitizeApiKey`
form of a string stored under that key in the input. -/
theorem sanitizeForLog_spec (fields : List (List Char × LogValue)) :
    (∀ k s, (k, LogValue.str s) ∈ fields → isSensitiveKey k = true →
      (k, LogValue.str (sanitizeApiKey s)) ∈ sanitizeForLog fields) ∧
    (∀ k s, (k, LogValue.str s) ∈ fields → isSensitiveKey k = false →
      (k, LogValue.str s) ∈ sanitizeForLog fields) ∧
    (∀ k g, (k, LogValue.obj g) ∈ fields →
      (k, LogValue.obj (sanitizeForLog g)) ∈ sanitizeForLog fields) ∧
    (∀ k v, (k, v) ∈ fields → (∀ s, v ≠ LogValue.str s) → (∀ g, v ≠ LogValue.obj g) →
      (k, v) ∈ sanitizeForLog fields) ∧
    (∀ k s, ReachesObj (sanitizeForLog fields) k s → isSensitiveKey k = true →
      ∃ t, ReachesObj fields k t ∧ s = sanitizeApiKey t) := by
  refine ⟨?_, ?_, ?_, ?_, ?_⟩
  · intro k s hmem hsens
    have := mem_sanitizeForLog_of_mem hmem
    rwa [sanitizeEntryValue_str, if_pos hsens] at this
  · intro k s hmem hsens
    have := mem_sanitizeForLog_of_mem hmem
    rwa [sanitizeEntryValue_str, if_neg (by simp [hsens])] at this
  · intro k g hmem
    have := mem_sanitizeForLog_of_mem hmem
    rwa [sanitizeEntryValue_obj] at this
  · intro k v hmem hs hg
    have := mem_sanitizeForLog_of_mem hmem
    rwa [sanitizeEntryValue_other k v hs hg] at this
  · intro k s hreach hsens
    exact reachesObj_sanitizeForLog hreach fields rfl hsens

/-- C7 witness: sanitizing `{apiKey: <secret>, balance: 50000}` masks the
secret under `apiKey` and keeps the number unchanged. -/
theorem sanitizeForLog_spec_witness :
    ("apiKey".data, LogValue.str (sanitizeApiKey secretToken)) ∈
      sanitizeForLog [("apiKey".data, LogValue.str secretToken),
        ("balance".data, LogValue.num 50000)] ∧
    ("balance".data, LogValue.num 50000) ∈
      sanitizeForLog [("apiKey".data, LogValue.str secretToken),
        ("balance".data, LogValue.num 50000)] := by
  have h := sanitizeForLog_spec [("apiKey".data, LogValue.str secretToken),
    ("balance".data, LogValue.num 50000)]
  exact ⟨h.1 "apiKey".data secretToken (by simp) (by decide),
    h.2.2.2.1 "balance".data (LogValue.num 50000) (by simp)
      (by intro s h; cases h) (by intro g h; cases h)⟩

end EmpirePortal
